import Mathlib

/-!
Verification development for `src/commands/pick.ts` (a VS Code file/directory
picker command).  The TypeScript source is shallowly embedded below: each
Lean definition mirrors one function of the source (named after it), and the
host capabilities (the `vscode` workspace file system, `process.env`, the
prompt UI) are passed in as explicit function arguments.  Strings are Lean
`String`s (lists of characters); `undefined`/`null` values are `Option`.
The host runs posix-style in this model: `vscode.Uri` path joining and Node's
`path.basename` are embedded with their posix semantics, and percent
decoding in `Uri.parse` is modelled as the identity (no input considered
here contains a percent sign).
-/

namespace PickTs

/-- JS whitespace class (the `\s` regex class, also the class used by
`String.prototype.trim`): space, tab, line feed, carriage return, vertical
tab, form feed, no-break space, BOM. -/
def jsIsSpace (c : Char) : Bool :=
  c == ' ' || c == '\t' || c == '\n' || c == '\r' || c.val == 11 || c.val == 12 ||
  c.val == 0xa0 || c.val == 0xfeff

/-- JS `String.prototype.trim` on a character list. -/
def trimChars (s : List Char) : List Char :=
  ((s.dropWhile jsIsSpace).reverse.dropWhile jsIsSpace).reverse

/-- JS `String.prototype.trim`. -/
def jsTrim (s : String) : String :=
  String.mk (trimChars s.data)

/-- JS `String.prototype.startsWith`, by character-list prefix test (the
host's byte-position implementation has the same meaning). -/
def strStartsWith (s pre : String) : Bool := pre.data.isPrefixOf s.data

/-- JS `String.prototype.endsWith`, by character-list suffix test. -/
def strEndsWith (s suf : String) : Bool := suf.data.isSuffixOf s.data

/-- Extend the first chunk of a chunk list by one leading character. -/
def consLine (c : Char) : List (List Char) → List (List Char)
  | [] => [[c]]
  | l :: ls => (c :: l) :: ls

/-- JS `String.prototype.split` with a single-character separator:
`"".split(c) = [""]`, separators at the ends produce empty chunks. -/
def splitOnChar (sep : Char) : List Char → List (List Char)
  | [] => [[]]
  | c :: cs =>
    if c = sep then [] :: splitOnChar sep cs
    else consLine c (splitOnChar sep cs)

/-- JS `Array.prototype.join` with a single-character separator. -/
def joinWithChar (sep : Char) : List (List Char) → List Char
  | [] => []
  | [l] => l
  | l :: ls => l ++ sep :: joinWithChar sep ls

/-- JS `String.prototype.split(/\r?\n/)`: line boundaries are `"\n"` or
`"\r\n"`; a carriage return not followed by a line feed stays in the line. -/
def splitLines : List Char → List (List Char)
  | [] => [[]]
  | '\r' :: '\n' :: cs => [] :: splitLines cs
  | c :: cs =>
    if c = '\n' then [] :: splitLines cs
    else consLine c (splitLines cs)

/- ### Posix path machinery (Node `path.posix`, used by `vscode.Uri.joinPath`) -/

/-- The `".."` handling of Node's posix `normalizeString`: pop the previous
segment unless there is none or it is itself `".."`, in which case `".."` is
kept only when `allowAbove` (i.e. for relative paths). -/
def segPop (allowAbove : Bool) : List (List Char) → List (List Char)
  | [] => if allowAbove then [['.', '.']] else []
  | top :: rest =>
    if top ≠ ['.', '.'] then rest
    else if allowAbove then ['.', '.'] :: top :: rest else top :: rest

/-- One segment step of Node's posix `normalizeString`, on a reversed stack of
path segments: `""` and `"."` are dropped, `".."` is handled by `segPop`, and
any other segment is pushed. -/
def segStep (allowAbove : Bool) (stack : List (List Char)) (seg : List Char) : List (List Char) :=
  if seg = [] ∨ seg = ['.'] then stack
  else if seg = ['.', '.'] then segPop allowAbove stack
  else seg :: stack

/-- Node posix `normalizeString`, segment view: resolve `"."` and `".."`
path segments left to right. -/
def normSegs (allowAbove : Bool) (segs : List (List Char)) : List (List Char) :=
  (segs.foldl (segStep allowAbove) []).reverse

/-- Reassembly step of Node `path.posix.normalize`: given whether the input
was absolute, whether it had a trailing separator, and the normalized body,
produce the result string. -/
def pnormalizeCore (abs trail : Bool) (body : List Char) : List Char :=
  if body = [] then
    if abs then ['/'] else if trail then ['.', '/'] else ['.']
  else
    (if abs then '/' :: body else body) ++ (if trail then ['/'] else [])

/-- Node `path.posix.normalize` on a character list. -/
def pnormalize (s : List Char) : List Char :=
  if s = [] then ['.']
  else
    pnormalizeCore (s.head? == some '/') (s.getLast? == some '/')
      (joinWithChar '/' (normSegs (!(s.head? == some '/')) (splitOnChar '/' s)))

/-- Node `path.posix.join` of two parts: empty parts are dropped, the rest are
joined with `'/'` and normalized; no parts at all give `"."`. -/
def pjoin (a b : List Char) : List Char :=
  match (if a = [] then [] else [a]) ++ (if b = [] then [] else [b]) with
  | [] => ['.']
  | parts => pnormalize (joinWithChar '/' parts)

/-- Node `path.posix.basename` (no extension argument): the last nonempty
segment of the path, ignoring trailing slashes. -/
def pbasename (s : List Char) : List Char :=
  ((s.reverse.dropWhile (· == '/')).takeWhile (fun c => !(c == '/'))).reverse

/- ### The `vscode.Uri` model (after the reference `vscode-uri` implementation) -/

/-- The `vscode.Uri` components.  Percent decoding is modelled as the
identity. -/
structure Uri where
  scheme : String
  authority : String
  path : String
  query : String
  fragment : String
deriving DecidableEq

/-- `vscode.Uri.parse` (non-strict): split the input on the pattern
`^(([^:/?#]+?):)?(\/\/([^/?#]*))?([^?#]*)(\?([^#]*))?(#(.*))?`, default an
absent scheme to `file`, and for the `file`/`http`/`https` schemes force the
path to start with a slash. -/
def uriParse (s : String) : Uri :=
  let cs := s.data
  let notSchemeEnd := fun (c : Char) => !(c == ':' || c == '/' || c == '?' || c == '#')
  let pre := cs.takeWhile notSchemeEnd
  let hasScheme := (!pre.isEmpty) && ((cs.drop pre.length).head? == some ':')
  let scheme := if hasScheme then pre else []
  let r1 := if hasScheme then cs.drop (pre.length + 1) else cs
  let notAuthEnd := fun (c : Char) => !(c == '/' || c == '?' || c == '#')
  let auth := match r1 with
    | '/' :: '/' :: t => t.takeWhile notAuthEnd
    | _ => []
  let r2 := match r1 with
    | '/' :: '/' :: t => t.dropWhile notAuthEnd
    | _ => r1
  let notPathEnd := fun (c : Char) => !(c == '?' || c == '#')
  let path0 := r2.takeWhile notPathEnd
  let r3 := r2.dropWhile notPathEnd
  let query := match r3 with
    | '?' :: t => t.takeWhile (fun c => !(c == '#'))
    | _ => []
  let r4 := match r3 with
    | '?' :: t => t.dropWhile (fun c => !(c == '#'))
    | _ => r3
  let frag := match r4 with
    | '#' :: t => t
    | _ => []
  let scheme' := if scheme = [] then "file".data else scheme
  let path' :=
    if scheme' = "file".data ∨ scheme' = "http".data ∨ scheme' = "https".data then
      match path0 with
      | [] => ['/']
      | c :: _ => if c == '/' then path0 else '/' :: path0
    else path0
  ⟨String.mk scheme', String.mk auth, String.mk path', String.mk query, String.mk frag⟩

/-- `vscode.Uri.joinPath(uri, fragment)` on a posix host: posix-join the path
fragment onto the uri's path, keeping the other components.  (The host throws
when `uri.path` is empty; the callers in this source always pass a uri whose
path is nonempty, and the model is total.) -/
def uriJoinPath (u : Uri) (frag : String) : Uri :=
  { u with path := String.mk (pjoin u.path.data frag.data) }

/-- An ASCII letter, for the drive-letter test of `uri.fsPath`. -/
def isAsciiLetter (c : Char) : Bool :=
  ('A' ≤ c && c ≤ 'Z') || ('a' ≤ c && c ≤ 'z')

/-- `uri.fsPath` on a posix host: UNC form for `file` uris with an authority,
the drive letter lowercased (and the leading slash dropped) for `/c:...`
style paths, otherwise the uri path itself. -/
def uriFsPath (u : Uri) : String :=
  if u.authority ≠ "" ∧ 1 < u.path.length ∧ u.scheme = "file" then
    "//" ++ u.authority ++ u.path
  else
    match u.path.data with
    | '/' :: c :: ':' :: rest =>
      if isAsciiLetter c then String.mk (c.toLower :: ':' :: rest) else u.path
    | _ => u.path

/- ### Data model -/

/-- `vscode.FileType` (the values returned by `fs.readDirectory`). -/
inductive FileType where
  | unknown
  | file
  | directory
  | symbolicLink
deriving DecidableEq

/-- A `vscode.WorkspaceFolder`: its uri and its display name. -/
structure WorkspaceFolder where
  uri : Uri
  name : String
deriving DecidableEq

/-- The `options` part of the picker configuration (type `Options` in the
source), every field already defaulted by `parseArgs`. -/
structure Options where
  native : Bool
  path : Option String
  canSelectFiles : Bool
  canSelectFolders : Bool
  canChangeFolder : Bool
  canSelectMany : Bool
  title : Option String
  filterRegExp : Option String
  filterExt : Option String
  defaultInputPath : Option String
  defaultWorkspace : Option String
  defaultEnvFile : Option String
deriving DecidableEq

/-- The `output` part of the picker configuration. -/
structure Output where
  join : String
  fsPath : Bool
  defaultPath : Option String
  default : Option String
deriving DecidableEq

/-- The defaulted configuration produced by `parseArgs` for an absent
argument (source lines 57-66). -/
def defaultOptions : Options :=
  { native := false
    path := none
    canSelectFiles := true
    canSelectFolders := false
    canChangeFolder := false
    canSelectMany := false
    title := none
    filterRegExp := none
    filterExt := none
    defaultInputPath := none
    defaultWorkspace := none
    defaultEnvFile := none }

/-- The defaulted `output` configuration of `parseArgs`. -/
def defaultOutput : Output :=
  { join := ",", fsPath := true, defaultPath := none, default := none }

/-- JS truthiness of an optional string: `undefined` and `""` are falsy. -/
def truthyStr : Option String → Bool
  | some s => !(s == "")
  | none => false

/- ### The env-file parser (`parseEnvContent`, source lines 174-195) -/

/-- The env map built by `parseEnvContent`, observed only through `has`/`get`:
an association list where an earlier entry shadows a later one, so that
`mapSet` (which prepends) gives JS `Map.set` overwrite semantics. -/
abbrev EnvMap := List (String × String)

/-- JS `Map.prototype.set` (for lookup purposes: the new binding shadows). -/
def mapSet (m : EnvMap) (k v : String) : EnvMap := (k, v) :: m

/-- JS `Map.prototype.get` (`none` for `undefined`). -/
def mapGet (m : EnvMap) (k : String) : Option String :=
  (m.find? (fun p => p.1 == k)).map (fun p => p.2)

/-- The single-quote character, written by code point. -/
def squote : Char := Char.ofNat 39

/-- Whether a character list is free of JS regex line terminators (`.` in a JS
regex matches any character except these). -/
def noLineTerm (s : List Char) : Bool :=
  s.all (fun c => !(c == '\n' || c == '\r' || c.val == 0x2028 || c.val == 0x2029))

/-- JS `value.replace(/^q(.*)q$/, "$1")` for a quote character `q`: strip one
surrounding pair of `q` when the whole value matches (the dot cannot cross a
line terminator, and the two quotes must be distinct characters). -/
def stripQuote (q : Char) (s : List Char) : List Char :=
  if 2 ≤ s.length ∧ s.head? = some q ∧ s.getLast? = some q ∧ noLineTerm ((s.drop 1).dropLast)
  then (s.drop 1).dropLast
  else s

/-- The value processing of `parseEnvContent` (line 189): `join('=')` has
already happened; trim, then strip one layer of double quotes, then one layer
of single quotes. -/
def processValue (v : List Char) : List Char :=
  stripQuote squote (stripQuote '"' (trimChars v))

/-- One line of `parseEnvContent`'s loop (source lines 180-192): skip blank
and `#`-comment lines, split at the first `=` (an absent `=` gives an empty
value; an empty key — the untrimmed text before the `=` — is skipped), and
`Map.set` the trimmed key to the processed value. -/
def parseLine (m : EnvMap) (line : List Char) : EnvMap :=
  if trimChars line = [] ∨ (trimChars line).head? = some '#' then m
  else
    match splitOnChar '=' line with
    | [] => m
    | key :: valueParts =>
      if key = [] then m
      else mapSet m (String.mk (trimChars key)) (String.mk (processValue (joinWithChar '=' valueParts)))

/-- `parseEnvContent` (source lines 174-195). -/
def parseEnvContent (envContent : String) : EnvMap :=
  (splitLines envContent.data).foldl parseLine []

/- ### Environment substitution (`resolveEnvVariables`, source lines 260-287) -/

/-- A JS word character (the `\w` regex class). -/
def isWordChar (c : Char) : Bool :=
  c.isAlpha || c.isDigit || c == '_'

/-- Attempt to match the regex `\$\{env:\s*([\w_]+)\}` at the start of the
input; on success return the captured identifier and the input remaining
after the match. -/
def matchPH : List Char → Option (String × List Char)
  | '$' :: '{' :: 'e' :: 'n' :: 'v' :: ':' :: rest =>
    match (rest.dropWhile jsIsSpace).dropWhile isWordChar, (rest.dropWhile jsIsSpace).takeWhile isWordChar with
    | '}' :: r, i :: ident => some (String.mk (i :: ident), r)
    | _, _ => none
  | _ => none

/-- The global-replace loop of `path.replace(/\$\{env:\s*([\w_]+)\}/g, f)`:
scan left to right, replacing each non-overlapping match by `lookup` of the
captured name (replacements are not rescanned).  `fuel` bounds the number of
steps; every step consumes at least one input character, so `fuel = s.length`
(as used by `envSubst`) never runs out. -/
def envSubstFuel (lookup : String → String) : Nat → List Char → List Char
  | 0, s => s
  | _ + 1, [] => []
  | fuel + 1, c :: cs =>
    match matchPH (c :: cs) with
    | some (nm, r) => (lookup nm).data ++ envSubstFuel lookup fuel r
    | none => c :: envSubstFuel lookup fuel cs

/-- The replace call of `resolveEnvVariables` (source lines 274-285). -/
def envSubst (lookup : String → String) (s : String) : String :=
  String.mk (envSubstFuel lookup s.data.length s.data)

/-- Whether the placeholder regex matches anywhere in the input. -/
def hasPH : List Char → Bool
  | [] => false
  | c :: cs => (matchPH (c :: cs)).isSome || hasPH cs

/-- The replacement-callback logic of `resolveEnvVariables` (source lines
276-284): the env-file map wins, then the process environment, then the empty
string. -/
def jsLookup (envMap : EnvMap) (procEnv : String → Option String) (nm : String) : String :=
  match mapGet envMap nm with
  | some v => v
  | none => (procEnv nm).getD ""

/- ### The resolvers (source lines 135-172, 198-210, 214-257, 260-287) -/

/-- `resolveEnvPath` (source lines 135-172).  The `filePath == null` test of
line 143 is unreachable here (`filePath` is a string), and `workspaceFolders`
being `undefined` is indistinguishable from an empty folder list in every
use, so the context is a plain list. -/
def resolveEnvPath (folders : List WorkspaceFolder) (filePath : String)
    (defaultWorkspace : Option String) : Option Uri :=
  if strStartsWith filePath "/" then some (uriParse filePath)
  else
    match folders with
    | [f] => some (uriJoinPath f.uri filePath)
    | _ =>
      match folders.find? (fun f =>
          strStartsWith ((uriParse filePath).path) (String.mk (pbasename f.uri.path.data) ++ "/")) with
      | some f => some (uriJoinPath f.uri filePath)
      | none =>
        match defaultWorkspace with
        | some w =>
          if w == "" then none
          else
            match folders.find? (fun f => f.name == w) with
            | some f => some (uriJoinPath f.uri filePath)
            | none => none
        | none => none

/-- `readWorkspaceFile` (source lines 198-210): resolve the file's uri, read
it through the host file system (`fsReadFile u = none` models a read that
throws, as does the `fs.readFile(undefined)` call when resolution failed);
every failure is caught and becomes the empty content string. -/
def readWorkspaceFile (fsReadFile : Uri → Option String) (folders : List WorkspaceFolder)
    (filePath : String) (defaultWorkspace : Option String) : String :=
  match resolveEnvPath folders filePath defaultWorkspace with
  | none => ""
  | some u => (fsReadFile u).getD ""

/-- The env-map construction of `resolveEnvVariables` (source lines 266-272):
when a truthy `defaultEnvFile` is configured, read it — note the source
passes `defaultEnvFile` itself as the `defaultWorkspace` argument of
`readWorkspaceFile` — and parse it; otherwise the map is empty. -/
def envMapOf (fsReadFile : Uri → Option String) (folders : List WorkspaceFolder)
    (defaultEnvFile : Option String) : EnvMap :=
  match defaultEnvFile with
  | some f =>
    if f == "" then []
    else parseEnvContent (readWorkspaceFile fsReadFile folders f (some f))
  | none => []

/-- `resolveEnvVariables` (source lines 260-287).  An absent or empty path is
falsy and yields `""` at once; otherwise every `${env:NAME}` placeholder is
replaced, looking up the env-file map first and the process environment
second.  The `defaultWorkspace` parameter is unused, as in the source. -/
def resolveEnvVariables (fsReadFile : Uri → Option String) (procEnv : String → Option String)
    (folders : List WorkspaceFolder) (path : Option String)
    (defaultEnvFile : Option String) (defaultWorkspace : Option String) : String :=
  match path with
  | none => ""
  | some p =>
    if p == "" then ""
    else envSubst (jsLookup (envMapOf fsReadFile folders defaultEnvFile) procEnv) p

/-- Steps 6-9 of `resolvePath` (source lines 234-256): join the path against
the single workspace root, else against a multi-root whose folder name
matches the path's leading segment, else against the root named by the
configured `defaultWorkspace`; otherwise unresolved. -/
def resolvePathRoots (folders : List WorkspaceFolder) (defaultWorkspace : Option String)
    (path : String) : Option Uri :=
  match folders with
  | [f] => some (uriJoinPath f.uri path)
  | _ =>
    match folders.find? (fun f =>
        strStartsWith ((uriParse path).path) (String.mk (pbasename f.uri.path.data) ++ "/")) with
    | some f => some (uriJoinPath f.uri path)
    | none =>
      match defaultWorkspace with
      | some w =>
        if w == "" then none
        else
          match folders.find? (fun f => f.name == w) with
          | some f => some (uriJoinPath f.uri path)
          | none => none
      | none => none

/-- Steps 4-9 of `resolvePath` (source lines 226-256), applied to the
already-substituted path: a path with a leading separator is returned as-is
(parsed); an empty path is replaced by a truthy configured
`defaultInputPath`; then the workspace joins of `resolvePathRoots`. -/
def resolvePathAfterSubst (folders : List WorkspaceFolder)
    (defaultWorkspace defaultInputPath : Option String) (path : String) : Option Uri :=
  if strStartsWith path "/" then some (uriParse path)
  else
    resolvePathRoots folders defaultWorkspace
      (if truthyStr defaultInputPath && (path == "") then defaultInputPath.getD "" else path)

/-- `resolvePath` (source lines 214-257): an absent path falls back to the
first workspace root; otherwise substitute `${env:NAME}` placeholders and
resolve the result per `resolvePathAfterSubst`. -/
def resolvePath (fsReadFile : Uri → Option String) (procEnv : String → Option String)
    (folders : List WorkspaceFolder)
    (defaultWorkspace defaultInputPath defaultEnvFile : Option String)
    (path : Option String) : Option Uri :=
  match path with
  | none =>
    match folders with
    | f :: _ => some f.uri
    | [] => none
  | some p0 =>
    resolvePathAfterSubst folders defaultWorkspace defaultInputPath
      (resolveEnvVariables fsReadFile procEnv folders (some p0) defaultEnvFile defaultWorkspace)

/- ### Output formatting and orchestration (source lines 36-54, 289-291) -/

/-- `formatUris` (source lines 289-291): `undefined` propagates; otherwise
render each uri per the `fsPath` flag and join with the configured
separator (an empty selection list therefore renders as `""`). -/
def formatUris (uris : Option (List Uri)) (output : Output) : Option String :=
  uris.map (fun us =>
    String.intercalate output.join (us.map (fun u => if output.fsPath then uriFsPath u else u.path)))

/-- The tail of `pickHandler` (source lines 43-53), as a function of the pick
result `uris` and of the already-resolved uri for `output.defaultPath`: a
non-null pick result is formatted and returned; otherwise `output.default`
verbatim; otherwise the resolved default path formatted, falling back to the
raw `output.defaultPath` string; otherwise `undefined`. -/
def pickHandlerTail (output : Output) (uris : Option (List Uri))
    (resolvedDefaultPath : Option Uri) : Option String :=
  match uris with
  | some us => formatUris (some us) output
  | none =>
    match output.default with
    | some d => some d
    | none =>
      match output.defaultPath with
      | some dp =>
        let formated :=
          match resolvedDefaultPath with
          | some u => formatUris (some [u]) output
          | none => none
        some (formated.getD dp)
      | none => none

/- ### The quick-pick listing and navigation (`pickWithQuick`, source lines 90-133) -/

/-- A directory entry after the uri-attaching map of line 111. -/
structure Entry where
  uri : Uri
  name : String
  type : FileType
deriving DecidableEq

/-- An item of the list handed to `showQuickPick` (line 116 adds the label:
directories get a trailing separator). -/
structure QuickItem where
  uri : Uri
  name : String
  type : FileType
  label : String
deriving DecidableEq

/-- The list construction of `pickWithQuick` (source lines 105-117), given
the normalized current directory `dir` (the source has already replaced `dir`
by `Uri.joinPath(dir, ".")` on line 101), the real directory entries
`children`, and the options.  `rtest pattern input` models
`RegExp(pattern).test(input)`; it is consulted only when a `filterRegExp` is
configured. -/
def buildItems (rtest : String → String → Bool) (dir : Uri)
    (children : List (String × FileType)) (o : Options) : List QuickItem :=
  ((((if o.canChangeFolder then [("..", FileType.directory)] else []) ++
      (if o.canSelectFolders then [(".", FileType.directory)] else []) ++
      children).map (fun nt => Entry.mk (uriJoinPath dir nt.1) nt.1 nt.2)
    |>.filter (fun e => e.type == FileType.directory || o.filterRegExp == none ||
        rtest (o.filterRegExp.getD "") e.uri.path)
    |>.filter (fun e => e.type == FileType.directory || o.filterExt == none ||
        strEndsWith e.uri.path (o.filterExt.getD ""))
    |>.filter (fun e => !(e.type == FileType.directory) || o.canSelectFolders || o.canChangeFolder)
    |>.filter (fun e => !(e.type == FileType.file) || o.canSelectFiles)).map
    (fun e => QuickItem.mk e.uri e.name e.type
      (if e.type == FileType.directory then e.name ++ "/" else e.name)))

/-- The directory normalization of line 101: `dir = Uri.joinPath(dir, ".")`. -/
def normDir (dir : Uri) : Uri := uriJoinPath dir "."

/-- The two possible continuations after a non-cancel selection. -/
inductive NavStep where
  | descend (dir : Uri)
  | terminal (uris : List Uri)
deriving DecidableEq

/-- The post-prompt decision of `pickWithQuick` (source lines 120-132), for a
non-cancel selection `items` against the normalized current directory `dir`:
exactly one selected directory entry, with `canChangeFolder` on and a path
different from the current directory's, re-enters browsing at that directory
(the source recurses into `pickWithQuick`); every other selection terminates
with the chosen uris. -/
def navDecide (dir : Uri) (items : List QuickItem) (canChangeFolder : Bool) : NavStep :=
  match items with
  | [i] =>
    if canChangeFolder && i.type == FileType.directory && !(i.uri.path == dir.path) then
      NavStep.descend i.uri
    else NavStep.terminal [i.uri]
  | _ => NavStep.terminal (items.map (fun i => i.uri))

/- ### Auxiliary predicates for the proofs -/

/-- The `".."` path segment. -/
def ddSeg : List Char := ['.', '.']

/-- A path segment that `segStep` always pushes: neither empty nor `"."` nor
`".."`. -/
def plainSeg (s : List Char) : Prop := s ≠ [] ∧ s ≠ ['.'] ∧ s ≠ ['.', '.']

/-- The invariant of the `normSegs` fold: the (reversed) stack is plain,
slash-free segments on top of a run of `".."` segments, the run empty unless
`allowAbove`. -/
def goodStack (a : Bool) (st : List (List Char)) : Prop :=
  ∃ pr k, st = pr ++ List.replicate k ddSeg ∧ (∀ x ∈ pr, plainSeg x ∧ '/' ∉ x) ∧
    (a = false → k = 0)

/-- Canonical result of `pjoin p "."` for nonempty `p`: the normalized body,
with the leading slash restored for absolute paths and no trailing
separator. -/
def pjoinDotCanon (p : List Char) : List Char :=
  if joinWithChar '/' (normSegs (!(p.head? == some '/')) (splitOnChar '/' p)) = [] then
    (if (p.head? == some '/') then ['/'] else ['.'])
  else
    (if (p.head? == some '/') then
      '/' :: joinWithChar '/' (normSegs (!(p.head? == some '/')) (splitOnChar '/' p))
    else joinWithChar '/' (normSegs (!(p.head? == some '/')) (splitOnChar '/' p)))

/- ### Lemma layer -/

/-- Dropping a matching run never lengthens a list. -/
theorem dropWhile_length_le (p : Char → Bool) (l : List Char) :
    (l.dropWhile p).length ≤ l.length := by
  induction l with
  | nil => simp
  | cons c cs ih =>
    by_cases h : p c
    · rw [List.dropWhile_cons_of_pos h]; simp; omega
    · rw [List.dropWhile_cons_of_neg h]

/-- A successful placeholder match consumes at least one character. -/
theorem matchPH_length_lt (s : List Char) (nm : String) (r : List Char)
    (h : matchPH s = some (nm, r)) : r.length < s.length := by
  unfold matchPH at h
  split at h
  · rename_i rest
    split at h
    · rename_i r' i ident heq hident
      have h1 : ('}' :: r').length ≤ (rest.dropWhile jsIsSpace).length := by
        rw [← heq]; exact dropWhile_length_le _ _
      have h2 : (rest.dropWhile jsIsSpace).length ≤ rest.length :=
        dropWhile_length_le _ _
      have hr : r = r' := by cases h; rfl
      subst hr
      simp only [List.length_cons] at h1 ⊢
      omega
    · exact absurd h (by simp)
  · exact absurd h (by simp)

/-- Splitting never produces an empty chunk list. -/
theorem splitOnChar_ne_nil (sep : Char) (l : List Char) : splitOnChar sep l ≠ [] := by
  cases l with
  | nil => simp [splitOnChar]
  | cons c cs =>
    by_cases h : c = sep
    · simp [splitOnChar, h]
    · simp only [splitOnChar, if_neg h]
      cases splitOnChar sep cs with
      | nil => simp [consLine]
      | cons a b => simp [consLine]

/-- Extending the first chunk commutes with appending further chunks. -/
theorem consLine_append (c : Char) (X Y : List (List Char)) (h : X ≠ []) :
    consLine c (X ++ Y) = consLine c X ++ Y := by
  cases X with
  | nil => exact absurd rfl h
  | cons a b => rfl

/-- Splitting distributes over a separator in the middle. -/
theorem splitOnChar_append (sep : Char) (a b : List Char) :
    splitOnChar sep (a ++ sep :: b) = splitOnChar sep a ++ splitOnChar sep b := by
  induction a with
  | nil => simp [splitOnChar]
  | cons c cs ih =>
    by_cases h : c = sep
    · simp only [List.cons_append, splitOnChar, List.append_eq, if_pos h, ih]
    · simp only [List.cons_append, splitOnChar, List.append_eq, if_neg h]
      rw [ih]
      exact consLine_append c _ _ (splitOnChar_ne_nil sep cs)

/-- A list free of the separator splits into itself. -/
theorem splitOnChar_of_not_mem (sep : Char) (l : List Char) (h : sep ∉ l) :
    splitOnChar sep l = [l] := by
  induction l with
  | nil => rfl
  | cons c cs ih =>
    have hc : c ≠ sep := fun he => h (he ▸ List.mem_cons_self c cs)
    simp only [splitOnChar, if_neg hc, ih (fun hm => h (List.mem_cons_of_mem _ hm))]
    rfl

/-- Every chunk produced by splitting is free of the separator. -/
theorem splitOnChar_chunks (sep : Char) (l : List Char) :
    ∀ ch ∈ splitOnChar sep l, sep ∉ ch := by
  induction l with
  | nil =>
    intro ch hch
    simp only [splitOnChar, List.mem_singleton] at hch
    subst hch; simp
  | cons c cs ih =>
    intro ch hch
    by_cases h : c = sep
    · simp only [splitOnChar, if_pos h, List.mem_cons] at hch
      rcases hch with rfl | hch
      · simp
      · exact ih ch hch
    · simp only [splitOnChar, if_neg h] at hch
      rcases hX : splitOnChar sep cs with _ | ⟨a, b⟩
      · exact absurd hX (splitOnChar_ne_nil sep cs)
      · rw [hX, consLine, List.mem_cons] at hch
        rcases hch with rfl | hch
        · intro hm
          rcases List.mem_cons.mp hm with he | hm2
          · exact h he.symm
          · exact ih a (hX ▸ List.mem_cons_self a b) hm2
        · exact ih ch (hX ▸ List.mem_cons_of_mem a hch)

/-- Joining a two-or-more chunk list peels off the first chunk. -/
theorem joinWithChar_cons (sep : Char) (a : List Char) (t : List (List Char)) (h : t ≠ []) :
    joinWithChar sep (a :: t) = a ++ sep :: joinWithChar sep t := by
  cases t with
  | nil => exact absurd rfl h
  | cons b u => rfl

/-- Joining after extending the first chunk prepends the character. -/
theorem joinWithChar_consLine (sep : Char) (c : Char) (X : List (List Char)) (h : X ≠ []) :
    joinWithChar sep (consLine c X) = c :: joinWithChar sep X := by
  cases X with
  | nil => exact absurd rfl h
  | cons a b =>
    cases b with
    | nil => rfl
    | cons d e => rfl

/-- Joining undoes splitting. -/
theorem join_split (sep : Char) (l : List Char) :
    joinWithChar sep (splitOnChar sep l) = l := by
  induction l with
  | nil => rfl
  | cons c cs ih =>
    by_cases h : c = sep
    · rw [show splitOnChar sep (c :: cs) = [] :: splitOnChar sep cs from by
        simp [splitOnChar, h]]
      rw [joinWithChar_cons sep [] _ (splitOnChar_ne_nil sep cs), ih, h]
      rfl
    · rw [show splitOnChar sep (c :: cs) = consLine c (splitOnChar sep cs) from by
        simp [splitOnChar, h]]
      rw [joinWithChar_consLine sep c _ (splitOnChar_ne_nil sep cs), ih]

/-- Splitting undoes joining, for a nonempty list of separator-free chunks. -/
theorem split_join (sep : Char) (S : List (List Char)) (hne : S ≠ [])
    (h : ∀ x ∈ S, sep ∉ x) : splitOnChar sep (joinWithChar sep S) = S := by
  induction S with
  | nil => exact absurd rfl hne
  | cons x t ih =>
    cases t with
    | nil =>
      show splitOnChar sep (joinWithChar sep [x]) = [x]
      rw [show joinWithChar sep [x] = x from rfl]
      exact splitOnChar_of_not_mem sep x (h x (List.mem_cons_self x []))
    | cons y u =>
      rw [joinWithChar_cons sep x (y :: u) (by simp)]
      rw [splitOnChar_append]
      rw [splitOnChar_of_not_mem sep x (h x (List.mem_cons_self _ _))]
      rw [ih (by simp) (fun z hz => h z (List.mem_cons_of_mem x hz))]
      rfl

/-- Line splitting at a line feed. -/
theorem splitLines_nl (cs : List Char) : splitLines ('\n' :: cs) = [] :: splitLines cs := rfl

/-- Line splitting on an ordinary character. -/
theorem splitLines_other (c : Char) (cs : List Char) (h1 : c ≠ '\n') (h2 : c ≠ '\r') :
    splitLines (c :: cs) = consLine c (splitLines cs) := by
  rw [splitLines.eq_def]
  split
  · rename_i heq
    exact absurd heq (List.cons_ne_nil c cs)
  · rename_i heq
    first
      | exact absurd rfl h2
      | (injection heq with e1 e2; exact absurd e1 h2)
  · rename_i heq
    injection heq with e1 e2
    subst e1
    subst e2
    rw [if_neg h1]

/-- A list free of line terminators is a single line. -/
theorem splitLines_single (l : List Char) (h1 : '\n' ∉ l) (h2 : '\r' ∉ l) :
    splitLines l = [l] := by
  induction l with
  | nil => rfl
  | cons c cs ih =>
    have hc1 : c ≠ '\n' := fun he => h1 (he ▸ List.mem_cons_self c cs)
    have hc2 : c ≠ '\r' := fun he => h2 (he ▸ List.mem_cons_self c cs)
    rw [splitLines_other c cs hc1 hc2,
      ih (fun m => h1 (List.mem_cons_of_mem c m)) (fun m => h2 (List.mem_cons_of_mem c m))]
    rfl

/-- Line splitting at a line feed after a terminator-free first line. -/
theorem splitLines_append (a b : List Char) (h1 : '\n' ∉ a) (h2 : '\r' ∉ a) :
    splitLines (a ++ '\n' :: b) = a :: splitLines b := by
  induction a with
  | nil => exact splitLines_nl b
  | cons c cs ih =>
    have hc1 : c ≠ '\n' := fun he => h1 (he ▸ List.mem_cons_self c cs)
    have hc2 : c ≠ '\r' := fun he => h2 (he ▸ List.mem_cons_self c cs)
    rw [List.cons_append, splitLines_other c _ hc1 hc2,
      ih (fun m => h1 (List.mem_cons_of_mem c m)) (fun m => h2 (List.mem_cons_of_mem c m))]
    rfl

/-- A list containing a non-whitespace character does not trim to empty. -/
theorem trimChars_ne_nil (l : List Char) (c : Char) (hc : c ∈ l) (hs : jsIsSpace c = false) :
    trimChars l ≠ [] := by
  intro h
  unfold trimChars at h
  rw [List.reverse_eq_nil_iff, List.dropWhile_eq_nil_iff] at h
  have hcd : c ∈ l.dropWhile jsIsSpace := by
    have hsplit := List.takeWhile_append_dropWhile (p := jsIsSpace) (l := l)
    rcases List.mem_append.mp (by rw [hsplit]; exact hc) with h' | h'
    · have := List.mem_takeWhile_imp h'
      rw [hs] at this
      exact absurd this (by simp)
    · exact h'
  have := h c (List.mem_reverse.mpr hcd)
  rw [hs] at this
  exact absurd this (by simp)

/-- With no placeholder anywhere, the substitution loop is the identity. -/
theorem envSubstFuel_id (lookup : String → String) :
    ∀ (fuel : Nat) (s : List Char), hasPH s = false → envSubstFuel lookup fuel s = s := by
  intro fuel
  induction fuel with
  | zero => intro s _; rfl
  | succ n ih =>
    intro s h
    cases s with
    | nil => rfl
    | cons c cs =>
      rw [hasPH] at h
      have h1 : matchPH (c :: cs) = none := by
        cases hm : matchPH (c :: cs) with
        | none => rfl
        | some v => rw [hm] at h; simp at h
      have h2 : hasPH cs = false := by
        rw [h1] at h; simpa using h
      rw [envSubstFuel, h1, ih cs h2]

/-- Empty and dot segments are skipped. -/
theorem segStep_skip (a : Bool) (st : List (List Char)) (x : List Char)
    (h : x = [] ∨ x = ['.']) : segStep a st x = st := by
  unfold segStep
  rw [if_pos h]

/-- Plain segments are pushed. -/
theorem segStep_plain (a : Bool) (st : List (List Char)) (x : List Char) (h : plainSeg x) :
    segStep a st x = x :: st := by
  obtain ⟨h1, h2, h3⟩ := h
  unfold segStep
  rw [if_neg (by rintro (he | he); exacts [h1 he, h2 he]), if_neg h3]

/-- Folding plain segments pushes them in reverse order. -/
theorem foldl_segStep_plain (a : Bool) (S : List (List Char)) :
    ∀ st, (∀ x ∈ S, plainSeg x) → S.foldl (segStep a) st = S.reverse ++ st := by
  induction S with
  | nil => intro st _; simp
  | cons x t ih =>
    intro st h
    rw [List.foldl_cons, segStep_plain a st x (h x (List.mem_cons_self x t)),
      ih (x :: st) (fun z hz => h z (List.mem_cons_of_mem x hz))]
    simp

/-- With `allowAbove`, a run of `".."` segments accumulates on a `".."` stack. -/
theorem foldl_segStep_dots (k : Nat) :
    ∀ j, (List.replicate k ddSeg).foldl (segStep true) (List.replicate j ddSeg)
      = List.replicate (j + k) ddSeg := by
  induction k with
  | zero => intro j; simp
  | succ n ih =>
    intro j
    rw [List.replicate_succ, List.foldl_cons]
    have hstep : segStep true (List.replicate j ddSeg) ddSeg = List.replicate (j + 1) ddSeg := by
      cases j with
      | zero => rfl
      | succ m =>
        simp only [List.replicate_succ, segStep, segPop]
        simp [ddSeg]
    rw [hstep, ih (j + 1), show j + 1 + n = j + (n + 1) from by omega]

/-- `segStep` preserves the stack invariant. -/
theorem segStep_good (a : Bool) (st : List (List Char)) (seg : List Char)
    (hst : goodStack a st) (hsep : '/' ∉ seg) : goodStack a (segStep a st seg) := by
  obtain ⟨pr, k, hste, hpr, hk⟩ := hst
  subst hste
  by_cases h1 : seg = [] ∨ seg = ['.']
  · rw [segStep_skip a _ seg h1]
    exact ⟨pr, k, rfl, hpr, hk⟩
  · by_cases h2 : seg = ['.', '.']
    · subst h2
      rw [show segStep a (pr ++ List.replicate k ddSeg) ['.', '.']
          = segPop a (pr ++ List.replicate k ddSeg) from by
        unfold segStep
        rw [if_neg h1, if_pos rfl]]
      cases pr with
      | nil =>
        cases k with
        | zero =>
          simp only [List.nil_append, List.replicate_zero]
          cases a with
          | false => exact ⟨[], 0, by simp [segPop], by simp, fun _ => rfl⟩
          | true => exact ⟨[], 1, by simp [segPop, ddSeg], by simp, by simp⟩
        | succ m =>
          simp only [List.nil_append, List.replicate_succ, segPop]
          rw [if_neg (by simp [ddSeg])]
          cases a with
          | true =>
            rw [if_pos rfl]
            exact ⟨[], m + 2, by simp [List.replicate_succ, ddSeg], by simp, by simp⟩
          | false => exact absurd (hk rfl) (by omega)
      | cons p0 pr' =>
        have hp0 : p0 ≠ ['.', '.'] := (hpr p0 (List.mem_cons_self _ _)).1.2.2
        rw [List.cons_append]
        simp only [segPop]
        rw [if_pos hp0]
        exact ⟨pr', k, rfl, fun z hz => hpr z (List.mem_cons_of_mem p0 hz), hk⟩
    · have hplain : plainSeg seg := ⟨fun he => h1 (Or.inl he), fun he => h1 (Or.inr he), h2⟩
      rw [segStep_plain a _ seg hplain]
      refine ⟨seg :: pr, k, by simp, ?_, hk⟩
      intro x hx
      rcases List.mem_cons.mp hx with rfl | hx
      · exact ⟨hplain, hsep⟩
      · exact hpr x hx

/-- The fold of `normSegs` preserves the invariant. -/
theorem foldl_segStep_good (a : Bool) (segs : List (List Char)) :
    ∀ st, goodStack a st → (∀ s ∈ segs, '/' ∉ s) →
      goodStack a (segs.foldl (segStep a) st) := by
  induction segs with
  | nil => intro st hst _; exact hst
  | cons x t ih =>
    intro st hst h
    rw [List.foldl_cons]
    exact ih _ (segStep_good a st x hst (h x (List.mem_cons_self x t)))
      (fun z hz => h z (List.mem_cons_of_mem x hz))

/-- Shape of `normSegs` output on slash-free segments: a run of `".."` (empty
unless `allowAbove`) followed by plain, slash-free segments. -/
theorem normSegs_shape (a : Bool) (segs : List (List Char)) (h : ∀ s ∈ segs, '/' ∉ s) :
    ∃ k pl, normSegs a segs = List.replicate k ddSeg ++ pl ∧
      (∀ x ∈ pl, plainSeg x ∧ '/' ∉ x) ∧ (a = false → k = 0) := by
  obtain ⟨pr, k, heq, hpr, hk⟩ :=
    foldl_segStep_good a segs [] ⟨[], 0, rfl, by simp, fun _ => rfl⟩ h
  refine ⟨k, pr.reverse, ?_, ?_, hk⟩
  · rw [normSegs, heq, List.reverse_append, List.reverse_replicate]
  · intro x hx
    exact hpr x (List.mem_reverse.mp hx)

/-- Reprocessing a canonical relative stack is the identity. -/
theorem normSegs_fixed_true (k : Nat) (pl : List (List Char)) (hpl : ∀ x ∈ pl, plainSeg x) :
    normSegs true (List.replicate k ddSeg ++ pl) = List.replicate k ddSeg ++ pl := by
  rw [normSegs, List.foldl_append]
  rw [show (List.replicate k ddSeg).foldl (segStep true) ([] : List (List Char))
      = List.replicate k ddSeg from by simpa using foldl_segStep_dots k 0]
  rw [foldl_segStep_plain true pl _ hpl]
  rw [List.reverse_append, List.reverse_reverse, List.reverse_replicate]

/-- Reprocessing a canonical absolute stack is the identity. -/
theorem normSegs_fixed_false (pl : List (List Char)) (hpl : ∀ x ∈ pl, plainSeg x) :
    normSegs false pl = pl := by
  rw [normSegs, foldl_segStep_plain false pl _ hpl]
  simp

/-- A leading empty segment is skipped. -/
theorem normSegs_cons_nil (a : Bool) (segs : List (List Char)) :
    normSegs a ([] :: segs) = normSegs a segs := by
  rw [normSegs, normSegs, List.foldl_cons, segStep_skip a [] [] (Or.inl rfl)]

/-- A trailing dot segment is skipped. -/
theorem normSegs_append_dot (a : Bool) (segs : List (List Char)) :
    normSegs a (segs ++ [['.']]) = normSegs a segs := by
  rw [normSegs, normSegs, List.foldl_append, List.foldl_cons,
    segStep_skip _ _ _ (Or.inr rfl), List.foldl_nil]

/-- The head of an append is the head of a nonempty left part. -/
theorem head?_append_left (p q : List Char) (hp : p ≠ []) : (p ++ q).head? = p.head? := by
  cases p with
  | nil => exact absurd rfl hp
  | cons c cs => rfl

/-- Joining nonempty separator-free chunks cannot start with the separator. -/
theorem joinWithChar_head_ne (sep : Char) (S : List (List Char)) (hS : S ≠ [])
    (h : ∀ x ∈ S, x ≠ [] ∧ sep ∉ x) : ¬((joinWithChar sep S).head? = some sep) := by
  cases S with
  | nil => exact absurd rfl hS
  | cons x t =>
    obtain ⟨hx, hsep⟩ := h x (List.mem_cons_self x t)
    cases x with
    | nil => exact absurd rfl hx
    | cons c cx =>
      have hc : c ≠ sep := fun he => hsep (he ▸ List.mem_cons_self c cx)
      cases t with
      | nil =>
        show ¬((c :: cx).head? = some sep)
        simp only [List.head?_cons]
        exact fun he => hc (Option.some.inj he)
      | cons y u =>
        rw [joinWithChar_cons sep (c :: cx) (y :: u) (by simp), List.cons_append]
        simp only [List.head?_cons]
        exact fun he => hc (Option.some.inj he)

/-- Computing `pjoin p "."` for nonempty `p`: the trailing-dot part is
swallowed by normalization and no trailing separator survives. -/
theorem pjoin_dot_eq (p : List Char) (hp : p ≠ []) : pjoin p ['.'] = pjoinDotCanon p := by
  unfold pjoin
  rw [if_neg hp, if_neg (by simp)]
  show pnormalize (joinWithChar '/' [p, ['.']]) = _
  rw [joinWithChar_cons '/' p [['.']] (by simp)]
  show pnormalize (p ++ ['/', '.']) = _
  have habs : (p ++ ['/', '.']).head? = p.head? := head?_append_left p _ hp
  have htrail : (p ++ ['/', '.']).getLast? = some '.' := by
    rw [show p ++ ['/', '.'] = (p ++ ['/']) ++ ['.'] from by simp]
    exact List.getLast?_concat _
  have hsplit : splitOnChar '/' (p ++ ['/', '.']) = splitOnChar '/' p ++ [['.']] := by
    rw [show p ++ ['/', '.'] = p ++ '/' :: ['.'] from rfl, splitOnChar_append,
      splitOnChar_of_not_mem '/' ['.'] (by simp)]
  unfold pnormalize
  rw [if_neg (by simp), habs, htrail, hsplit, normSegs_append_dot]
  unfold pnormalizeCore pjoinDotCanon
  simp only [show ((some '.' : Option Char) == some '/') = false from rfl,
    Bool.false_eq_true, if_false, List.append_nil]

/-- Normalization-by-joining-with-dot is idempotent. -/
theorem pjoin_dot_idem (p : List Char) : pjoin (pjoin p ['.']) ['.'] = pjoin p ['.'] := by
  by_cases hp : p = []
  · subst hp; rfl
  · rw [pjoin_dot_eq p hp]
    obtain ⟨k, pl, hshape, hpl, hk⟩ :=
      normSegs_shape (!(p.head? == some '/')) (splitOnChar '/' p) (splitOnChar_chunks '/' p)
    have hplplain : ∀ x ∈ pl, plainSeg x := fun x hx => (hpl x hx).1
    have hplsep : ∀ x ∈ pl, '/' ∉ x := fun x hx => (hpl x hx).2
    cases habs : (p.head? == some '/') with
    | true =>
      have hk0 : k = 0 := hk (by rw [habs]; rfl)
      subst hk0
      rw [habs] at hshape
      simp only [Bool.not_true, List.replicate_zero, List.nil_append] at hshape
      have hcanon : pjoinDotCanon p =
          (if joinWithChar '/' pl = [] then ['/'] else '/' :: joinWithChar '/' pl) := by
        unfold pjoinDotCanon
        rw [habs]
        simp only [Bool.not_true]
        rw [hshape]
        simp
      rw [hcanon]
      by_cases hbody : joinWithChar '/' pl = []
      · rw [if_pos hbody]; rfl
      · rw [if_neg hbody]
        have hpl' : pl ≠ [] := fun he => hbody (by rw [he]; rfl)
        rw [pjoin_dot_eq _ (by simp)]
        unfold pjoinDotCanon
        rw [show ((('/' :: joinWithChar '/' pl).head?) == some '/') = true from rfl]
        simp only [Bool.not_true]
        rw [show splitOnChar '/' ('/' :: joinWithChar '/' pl)
            = [] :: splitOnChar '/' (joinWithChar '/' pl) from by simp [splitOnChar]]
        rw [split_join '/' pl hpl' hplsep, normSegs_cons_nil false pl,
          normSegs_fixed_false pl hplplain]
        simp [hbody]
    | false =>
      rw [habs] at hshape
      simp only [Bool.not_false] at hshape
      have hS : ∀ x ∈ List.replicate k ddSeg ++ pl, x ≠ [] ∧ '/' ∉ x := by
        intro x hx
        rcases List.mem_append.mp hx with hx | hx
        · rw [List.eq_of_mem_replicate hx]
          exact ⟨by simp [ddSeg], by simp [ddSeg]⟩
        · exact ⟨(hplplain x hx).1, hplsep x hx⟩
      have hcanon : pjoinDotCanon p =
          (if joinWithChar '/' (List.replicate k ddSeg ++ pl) = [] then ['.']
           else joinWithChar '/' (List.replicate k ddSeg ++ pl)) := by
        unfold pjoinDotCanon
        rw [habs]
        simp only [Bool.not_false]
        rw [hshape]
        simp
      rw [hcanon]
      by_cases hbody : joinWithChar '/' (List.replicate k ddSeg ++ pl) = []
      · rw [if_pos hbody]; rfl
      · rw [if_neg hbody]
        have hS' : List.replicate k ddSeg ++ pl ≠ [] := fun he => hbody (by rw [he]; rfl)
        rw [pjoin_dot_eq _ hbody]
        unfold pjoinDotCanon
        have habs' : ((joinWithChar '/' (List.replicate k ddSeg ++ pl)).head? == some '/')
            = false := by
          rw [Bool.eq_false_iff]
          intro he
          exact joinWithChar_head_ne '/' _ hS' hS (by simpa using he)
        rw [habs']
        simp only [Bool.not_false]
        rw [split_join '/' _ hS' (fun x hx => (hS x hx).2),
          normSegs_fixed_true k pl hplplain]
        simp [hbody]

/-- With no placeholder in the path, `resolveEnvVariables` is the identity. -/
theorem resolveEnvVariables_id (fs : Uri → Option String) (procEnv : String → Option String)
    (folders : List WorkspaceFolder) (defEnv dw : Option String) (p : String)
    (h : hasPH p.data = false) :
    resolveEnvVariables fs procEnv folders (some p) defEnv dw = p := by
  by_cases hp : p = ""
  · subst hp; rfl
  · have hb : (p == "") = false := by simp [hp]
    simp only [resolveEnvVariables, hb, Bool.false_eq_true, if_false]
    unfold envSubst
    rw [envSubstFuel_id _ _ _ h]

/-- When every read throws, `readWorkspaceFile` returns the empty content. -/
theorem readWorkspaceFile_fail (fs : Uri → Option String) (h : ∀ u, fs u = none)
    (folders : List WorkspaceFolder) (f : String) (dw : Option String) :
    readWorkspaceFile fs folders f dw = "" := by
  unfold readWorkspaceFile
  cases hr : resolveEnvPath folders f dw with
  | none => rfl
  | some u =>
    show (fs u).getD "" = ""
    rw [h u]
    rfl

/-- Joining `"."` onto an already-normalized directory is the identity. -/
theorem uriJoinPath_normDir (u : Uri) : uriJoinPath (normDir u) "." = normDir u := by
  show ({ u with path := String.mk (pjoin (pjoin u.path.data ['.']) ['.']) } : Uri)
      = { u with path := String.mk (pjoin u.path.data ['.']) }
  rw [pjoin_dot_idem]

/-- A `KEY=VALUE` line sets the trimmed key to the processed value. -/
theorem parseLine_kv (m : EnvMap) (k v : List Char) (hk_eq : '=' ∉ k) (hk_ne : k ≠ [])
    (hline : ¬(trimChars (k ++ '=' :: v) = []
      ∨ (trimChars (k ++ '=' :: v)).head? = some '#')) :
    parseLine m (k ++ '=' :: v)
      = mapSet m (String.mk (trimChars k)) (String.mk (processValue v)) := by
  unfold parseLine
  rw [if_neg hline]
  rw [show splitOnChar '=' (k ++ '=' :: v) = k :: splitOnChar '=' v from by
    rw [splitOnChar_append, splitOnChar_of_not_mem '=' k hk_eq]; rfl]
  show (if k = [] then m
    else mapSet m (String.mk (trimChars k))
      (String.mk (processValue (joinWithChar '=' (splitOnChar '=' v))))) = _
  rw [if_neg hk_ne, join_split]

/- ### The claims -/

/-- C1, counterexample: `formatUris` on an empty (but present) selection list
returns the empty string, not undefined, and the orchestration returns that
empty string instead of falling through to the configured `output.default`. -/
theorem c1_counterexample :
    formatUris (some []) defaultOutput = some "" ∧
    formatUris (some []) defaultOutput ≠ none ∧
    pickHandlerTail { defaultOutput with default := some "X" } (some []) none = some "" ∧
    pickHandlerTail { defaultOutput with default := some "X" } (some []) none ≠ some "X" := by
  refine ⟨rfl, by decide, rfl, by decide⟩

/-- C1 (amended): the Output Formatter returns undefined exactly when the
SelectionResult is undefined; an empty selection list is formatted to the
empty string, and the orchestration formats and returns any non-null
selection (including the empty one) instead of applying the fallback
chain. -/
theorem c1_formatter_empty_amended (output : Output) (rdp : Option Uri) (us : List Uri) :
    formatUris none output = none ∧
    formatUris (some []) output = some "" ∧
    pickHandlerTail output (some us) rdp = formatUris (some us) output := by
  exact ⟨rfl, rfl, rfl⟩

/-- C2, counterexample: the env-file path is not resolved by the same
algorithm as the Root Resolver — `resolveEnvPath` performs no environment
substitution, so on the path `"${env:A}"` under one workspace root it joins
the raw placeholder text while `resolvePath` joins the substituted value. -/
theorem c2_counterexample :
    resolveEnvPath [⟨uriParse "/r", "r"⟩] "$\x7benv:A\x7d" none ≠
      resolvePath (fun _ => none) (fun n => if n == "A" then some "q" else none)
        [⟨uriParse "/r", "r"⟩] none none none (some "$\x7benv:A\x7d") := by
  decide

/-- C2 (amended): for a nonempty env-file path that environment substitution
leaves unchanged, `resolveEnvPath` agrees with the Root Resolver
(`resolvePath`) given the same workspace context and `defaultWorkspace`: the
absolute case, the single-root join, the multi-root leading-segment match and
the `defaultWorkspace` override all coincide. -/
theorem c2_envpath_amended (fs : Uri → Option String) (procEnv : String → Option String)
    (folders : List WorkspaceFolder) (dw dip defEnv : Option String) (ef : String)
    (hsub : resolveEnvVariables fs procEnv folders (some ef) defEnv dw = ef)
    (hne : ef ≠ "") :
    resolveEnvPath folders ef dw
      = resolvePath fs procEnv folders dw dip defEnv (some ef) := by
  have hb : (ef == "") = false := by simp [hne]
  show resolveEnvPath folders ef dw
      = resolvePathAfterSubst folders dw dip
          (resolveEnvVariables fs procEnv folders (some ef) defEnv dw)
  rw [hsub]
  unfold resolvePathAfterSubst
  rw [hb, Bool.and_false]
  simp only [Bool.false_eq_true, if_false]
  unfold resolveEnvPath resolvePathRoots
  rfl

/-- C2 witness: a concrete placeholder-free relative path resolved equally by
both functions under one workspace root. -/
theorem c2_envpath_amended_witness :
    resolveEnvVariables (fun _ => none) (fun _ => none) [⟨uriParse "/r", "r"⟩]
      (some "x/y") none none = "x/y" ∧
    resolveEnvPath [⟨uriParse "/r", "r"⟩] "x/y" none
      = resolvePath (fun _ => none) (fun _ => none) [⟨uriParse "/r", "r"⟩]
          none none none (some "x/y") :=
  ⟨by decide,
    c2_envpath_amended (fun _ => none) (fun _ => none) [⟨uriParse "/r", "r"⟩]
      none none none "x/y" (by decide) (by decide)⟩

/-- C3, counterexample: a nonblank, non-comment line without `=` does
contribute a key — `parseEnvContent "FOO"` maps `"FOO"` to the empty
string. -/
theorem c3_counterexample :
    parseEnvContent "FOO" = [("FOO", "")] ∧
    mapGet (parseEnvContent "FOO") "FOO" = some "" := by
  decide

/-- C3 (amended): a line without `=` contributes no key only when it is blank
or a `#`-comment; otherwise its trimmed text becomes a key mapped to the
empty string. -/
theorem c3_no_equals_amended (l : List Char) (hnoeq : '=' ∉ l)
    (hnl : '\n' ∉ l) (hcr : '\r' ∉ l) :
    parseEnvContent (String.mk l) =
      if trimChars l = [] ∨ (trimChars l).head? = some '#' then []
      else [(String.mk (trimChars l), "")] := by
  unfold parseEnvContent
  rw [show (String.mk l).data = l from rfl, splitLines_single l hnl hcr]
  show parseLine [] l = _
  unfold parseLine
  by_cases hskip : trimChars l = [] ∨ (trimChars l).head? = some '#'
  · rw [if_pos hskip, if_pos hskip]
  · rw [if_neg hskip, if_neg hskip]
    rw [splitOnChar_of_not_mem '=' l hnoeq]
    show (if l = [] then []
      else mapSet [] (String.mk (trimChars l))
        (String.mk (processValue (joinWithChar '=' [])))) = _
    have hlne : l ≠ [] := by
      intro he
      subst he
      exact hskip (Or.inl rfl)
    rw [if_neg hlne]
    rfl

/-- C3 witness: the amended statement evaluated on the line `"FOO"`. -/
theorem c3_no_equals_amended_witness :
    parseEnvContent (String.mk ['F', 'O', 'O']) =
      (if trimChars ['F', 'O', 'O'] = [] ∨ (trimChars ['F', 'O', 'O']).head? = some '#' then []
       else [(String.mk (trimChars ['F', 'O', 'O']), "")]) ∧
    parseEnvContent "FOO" = [("FOO", "")] :=
  ⟨c3_no_equals_amended ['F', 'O', 'O'] (by decide) (by decide) (by decide), by decide⟩

/-- C4, counterexample: when the env-file read fails, substitution does not
yield empty values for all placeholders — a name present in the process
environment substitutes to the process value. -/
theorem c4_counterexample :
    resolveEnvVariables (fun _ => none) (fun n => if n == "A" then some "q" else none)
      [] (some "$\x7benv:A\x7d") (some "e.env") none = "q" ∧
    ("q" : String) ≠ "" := by
  decide

/-- C4 (amended): a missing or unreadable env file is caught at the read
boundary and degrades to the empty content string without aborting, after
which substitution behaves as if no env file were configured: each
`${env:NAME}` placeholder takes the process-environment value, and yields the
empty string only for names absent there. -/
theorem c4_envfile_failure_amended (fs : Uri → Option String) (hfail : ∀ u, fs u = none)
    (procEnv : String → Option String) (folders : List WorkspaceFolder)
    (f : String) (dw : Option String) (p : String) :
    readWorkspaceFile fs folders f dw = "" ∧
    resolveEnvVariables fs procEnv folders (some p) (some f) dw
      = resolveEnvVariables fs procEnv folders (some p) none dw ∧
    (∀ nm, jsLookup (envMapOf fs folders (some f)) procEnv nm = (procEnv nm).getD "") := by
  have hrw : ∀ dw', readWorkspaceFile fs folders f dw' = "" :=
    fun dw' => readWorkspaceFile_fail fs hfail folders f dw'
  have hmap : envMapOf fs folders (some f) = [] := by
    show (if (f == "") = true then []
      else parseEnvContent (readWorkspaceFile fs folders f (some f))) = []
    by_cases hf : f = ""
    · rw [if_pos (by simp [hf])]
    · rw [if_neg (by simp [hf]), hrw (some f)]
      rfl
  refine ⟨hrw dw, ?_, ?_⟩
  · unfold resolveEnvVariables
    rw [hmap]
    rfl
  · intro nm
    rw [hmap]
    rfl

/-- C4 witness: the amended statement evaluated with an always-failing file
system and a process environment defining `"B"`. -/
theorem c4_envfile_failure_amended_witness :
    readWorkspaceFile (fun _ => none) [] "e.env" none = "" ∧
    jsLookup (envMapOf (fun _ => none) [] (some "e.env")) (fun _ => some "x") "B" = "x" := by
  refine ⟨(c4_envfile_failure_amended (fun _ => none) (fun _ => rfl) (fun _ => some "x")
    [] "e.env" none "p").1, ?_⟩
  have h := (c4_envfile_failure_amended (fun _ => none) (fun _ => rfl) (fun _ => some "x")
    [] "e.env" none "p").2.2 "B"
  simpa using h

/-- C5, counterexample: a value wrapped in double quotes around single quotes
loses both layers — lookup returns `v`, not the one-layer result `'v'`. -/
theorem c5_counterexample :
    mapGet (parseEnvContent "K=\"\x27v\x27\"") "K" = some "v" ∧
    (some "v" : Option String) ≠ some "\x27v\x27" := by
  decide

/-- C5 (amended): parsing then looking up a key defined on exactly one
`KEY=VALUE` line returns the value trimmed of surrounding whitespace with one
layer of matching double quotes stripped and then one layer of matching
single quotes stripped (so a double-quoted single-quoted value loses both);
when the key is defined on two lines, lookup returns the later line's
value. -/
theorem c5_parse_lookup_amended (k v v2 : List Char)
    (hk_eq : '=' ∉ k) (hk_ne : k ≠ [])
    (hk_nl : '\n' ∉ k) (hk_cr : '\r' ∉ k)
    (hv_nl : '\n' ∉ v) (hv_cr : '\r' ∉ v)
    (hv2_nl : '\n' ∉ v2) (hv2_cr : '\r' ∉ v2)
    (hline1 : (trimChars (k ++ '=' :: v)).head? ≠ some '#')
    (hline2 : (trimChars (k ++ '=' :: v2)).head? ≠ some '#') :
    mapGet (parseEnvContent (String.mk (k ++ '=' :: v))) (String.mk (trimChars k))
      = some (String.mk (processValue v)) ∧
    mapGet (parseEnvContent (String.mk ((k ++ '=' :: v) ++ '\n' :: (k ++ '=' :: v2))))
        (String.mk (trimChars k))
      = some (String.mk (processValue v2)) := by
  have hmem1 : '=' ∈ k ++ '=' :: v := List.mem_append.mpr (Or.inr (List.mem_cons_self _ _))
  have hmem2 : '=' ∈ k ++ '=' :: v2 := List.mem_append.mpr (Or.inr (List.mem_cons_self _ _))
  have htne1 : trimChars (k ++ '=' :: v) ≠ [] := trimChars_ne_nil _ '=' hmem1 (by decide)
  have htne2 : trimChars (k ++ '=' :: v2) ≠ [] := trimChars_ne_nil _ '=' hmem2 (by decide)
  have hline1' : ¬(trimChars (k ++ '=' :: v) = []
      ∨ (trimChars (k ++ '=' :: v)).head? = some '#') := by
    rintro (h | h)
    exacts [htne1 h, hline1 h]
  have hline2' : ¬(trimChars (k ++ '=' :: v2) = []
      ∨ (trimChars (k ++ '=' :: v2)).head? = some '#') := by
    rintro (h | h)
    exacts [htne2 h, hline2 h]
  have hnl1 : '\n' ∉ k ++ '=' :: v := by
    intro hm
    rcases List.mem_append.mp hm with hm | hm
    · exact hk_nl hm
    · rcases List.mem_cons.mp hm with he | hm
      · exact absurd he (by decide)
      · exact hv_nl hm
  have hcr1 : '\r' ∉ k ++ '=' :: v := by
    intro hm
    rcases List.mem_append.mp hm with hm | hm
    · exact hk_cr hm
    · rcases List.mem_cons.mp hm with he | hm
      · exact absurd he (by decide)
      · exact hv_cr hm
  have hnl2 : '\n' ∉ k ++ '=' :: v2 := by
    intro hm
    rcases List.mem_append.mp hm with hm | hm
    · exact hk_nl hm
    · rcases List.mem_cons.mp hm with he | hm
      · exact absurd he (by decide)
      · exact hv2_nl hm
  have hcr2 : '\r' ∉ k ++ '=' :: v2 := by
    intro hm
    rcases List.mem_append.mp hm with hm | hm
    · exact hk_cr hm
    · rcases List.mem_cons.mp hm with he | hm
      · exact absurd he (by decide)
      · exact hv2_cr hm
  constructor
  · unfold parseEnvContent
    rw [show (String.mk (k ++ '=' :: v)).data = k ++ '=' :: v from rfl,
      splitLines_single _ hnl1 hcr1]
    show mapGet (parseLine [] (k ++ '=' :: v)) _ = _
    rw [parseLine_kv [] k v hk_eq hk_ne hline1']
    simp [mapGet, mapSet, List.find?]
  · unfold parseEnvContent
    rw [show (String.mk ((k ++ '=' :: v) ++ '\n' :: (k ++ '=' :: v2))).data
        = (k ++ '=' :: v) ++ '\n' :: (k ++ '=' :: v2) from rfl,
      splitLines_append _ _ hnl1 hcr1, splitLines_single _ hnl2 hcr2]
    show mapGet (parseLine (parseLine [] (k ++ '=' :: v)) (k ++ '=' :: v2)) _ = _
    rw [parseLine_kv [] k v hk_eq hk_ne hline1', parseLine_kv _ k v2 hk_eq hk_ne hline2']
    simp [mapGet, mapSet, List.find?]

/-- C5 witness: the amended statement evaluated on `K=1` and the duplicate
content `K=1` then `K=2`. -/
theorem c5_parse_lookup_amended_witness :
    mapGet (parseEnvContent (String.mk (['K'] ++ '=' :: ['1']))) (String.mk (trimChars ['K']))
      = some (String.mk (processValue ['1'])) ∧
    mapGet (parseEnvContent (String.mk ((['K'] ++ '=' :: ['1']) ++ '\n' :: (['K'] ++ '=' :: ['2']))))
        (String.mk (trimChars ['K']))
      = some (String.mk (processValue ['2'])) :=
  c5_parse_lookup_amended ['K'] ['1'] ['2'] (by decide) (by decide) (by decide) (by decide)
    (by decide) (by decide) (by decide) (by decide) (by decide) (by decide)

/-- C6 (confirmed): with `canSelectFolders = false`, `canChangeFolder = false`
and no filters, a directory holding files `x.env`, `y.txt` and subdirectory
`sub` is presented as exactly the two file entries — no `".."` or `"."`
pseudo-entry and no entry for `sub`. -/
theorem c6_quick_listing (rtest : String → String → Bool) (dir : Uri) :
    buildItems rtest dir
        [("x.env", FileType.file), ("y.txt", FileType.file), ("sub", FileType.directory)]
        defaultOptions
      = [⟨uriJoinPath dir "x.env", "x.env", FileType.file, "x.env"⟩,
         ⟨uriJoinPath dir "y.txt", "y.txt", FileType.file, "y.txt"⟩] := rfl

/-- C7 (confirmed): after a non-cancel selection, the navigation machine
descends exactly when one entry is selected, it is a directory,
`canChangeFolder` is on, and its path differs from the current directory's;
every other selection terminates with the chosen locations. -/
theorem c7_nav_transition (dir : Uri) (items : List QuickItem) (ccf : Bool) :
    (∀ i, items = [i] →
      navDecide dir items ccf
        = (if ccf = true ∧ i.type = FileType.directory ∧ i.uri.path ≠ dir.path
           then NavStep.descend i.uri else NavStep.terminal [i.uri])) ∧
    ((∀ i, items ≠ [i]) →
      navDecide dir items ccf = NavStep.terminal (items.map (fun i => i.uri))) := by
  constructor
  · intro i hi
    subst hi
    show (if ccf && i.type == FileType.directory && !(i.uri.path == dir.path)
        then NavStep.descend i.uri else NavStep.terminal [i.uri]) = _
    have hbool : (ccf && i.type == FileType.directory && !(i.uri.path == dir.path)) = true
        ↔ (ccf = true ∧ i.type = FileType.directory ∧ i.uri.path ≠ dir.path) := by
      simp [Bool.and_eq_true, and_assoc]
    by_cases h1 : ccf = true ∧ i.type = FileType.directory ∧ i.uri.path ≠ dir.path
    · rw [if_pos (hbool.mpr h1), if_pos h1]
    · rw [if_neg (fun hb => h1 (hbool.mp hb)), if_neg h1]
  · intro h
    cases items with
    | nil => rfl
    | cons i t =>
      cases t with
      | nil => exact absurd rfl (h i)
      | cons j u => rfl

/-- C7 witness: a selected distinct directory descends; an empty selection
terminates. -/
theorem c7_nav_transition_witness :
    navDecide (uriParse "/a") [⟨uriParse "/a/b", "b", FileType.directory, "b/"⟩] true
      = NavStep.descend (uriParse "/a/b") ∧
    navDecide (uriParse "/a") [] true = NavStep.terminal [] := by
  constructor
  · have h := (c7_nav_transition (uriParse "/a")
      [⟨uriParse "/a/b", "b", FileType.directory, "b/"⟩] true).1
      ⟨uriParse "/a/b", "b", FileType.directory, "b/"⟩ rfl
    rw [h, if_pos ⟨rfl, rfl, by decide⟩]
  · have h := (c7_nav_transition (uriParse "/a") [] true).2 (fun i => by simp)
    simpa using h

/-- C8, counterexample: an absolute path containing a placeholder is not
returned unchanged — substitution rewrites it before the leading-separator
branch, so `"/${env:A}"` resolves to the parsed `"/v"`. -/
theorem c8_counterexample :
    resolvePath (fun _ => none) (fun n => if n == "A" then some "v" else none)
      [] none none none (some "/$\x7benv:A\x7d")
      = some (uriParse "/v") ∧
    uriParse "/v" ≠ uriParse "/$\x7benv:A\x7d" := by
  decide

/-- C8 (amended): a path with a leading separator and no `${env:...}`
placeholder is returned unchanged by the Root Resolver — parsed as an
absolute location, never joined with any workspace root — in every workspace
context. -/
theorem c8_absolute_amended (fs : Uri → Option String) (procEnv : String → Option String)
    (folders : List WorkspaceFolder) (dw dip defEnv : Option String) (p : String)
    (hph : hasPH p.data = false) (habs : strStartsWith p "/" = true) :
    resolvePath fs procEnv folders dw dip defEnv (some p) = some (uriParse p) := by
  show resolvePathAfterSubst folders dw dip
      (resolveEnvVariables fs procEnv folders (some p) defEnv dw) = _
  rw [resolveEnvVariables_id fs procEnv folders defEnv dw p hph]
  unfold resolvePathAfterSubst
  simp [habs]

/-- C8 witness: the amended statement evaluated on `"/abs/q"` under one
workspace root. -/
theorem c8_absolute_amended_witness :
    hasPH "/abs/q".data = false ∧
    strStartsWith "/abs/q" "/" = true ∧
    resolvePath (fun _ => none) (fun _ => none) [⟨uriParse "/r", "r"⟩] none none none
        (some "/abs/q")
      = some (uriParse "/abs/q") :=
  ⟨by decide, by decide,
    c8_absolute_amended (fun _ => none) (fun _ => none) [⟨uriParse "/r", "r"⟩]
      none none none "/abs/q" (by decide) (by decide)⟩

/-- C9 (confirmed): on a path containing no `${env:IDENTIFIER}` placeholder,
Environment Substitution is the identity, for every env file, file system and
process environment. -/
theorem c9_subst_identity (p : String) (hph : hasPH p.data = false)
    (fs : Uri → Option String) (procEnv : String → Option String)
    (folders : List WorkspaceFolder) (defEnv dw : Option String) :
    resolveEnvVariables fs procEnv folders (some p) defEnv dw = p :=
  resolveEnvVariables_id fs procEnv folders defEnv dw p hph

/-- C9 witness: the identity evaluated on a concrete placeholder-free path. -/
theorem c9_subst_identity_witness :
    hasPH "plain/path.txt".data = false ∧
    resolveEnvVariables (fun _ => none) (fun _ => some "x") [] (some "plain/path.txt")
      (some "e.env") none = "plain/path.txt" :=
  ⟨by decide, c9_subst_identity "plain/path.txt" (by decide) _ _ _ _ _⟩

/-- C10 (confirmed): in every browsing state, the synthesized `"."`
pseudo-entry's location equals the (`joinPath`-normalized) current directory,
so selecting it alone never satisfies the descend condition: the machine
terminates with exactly the current directory, for either value of
`canChangeFolder`. -/
theorem c10_dot_terminal (dir : Uri) (rtest : String → String → Bool)
    (children : List (String × FileType)) (o : Options) (hsel : o.canSelectFolders = true) :
    (⟨uriJoinPath (normDir dir) ".", ".", FileType.directory, "./"⟩ : QuickItem)
        ∈ buildItems rtest (normDir dir) children o ∧
    uriJoinPath (normDir dir) "." = normDir dir ∧
    ∀ ccf : Bool,
      navDecide (normDir dir)
          [⟨uriJoinPath (normDir dir) ".", ".", FileType.directory, "./"⟩] ccf
        = NavStep.terminal [normDir dir] := by
  have hjd : uriJoinPath (normDir dir) "." = normDir dir := uriJoinPath_normDir dir
  refine ⟨?_, hjd, ?_⟩
  · unfold buildItems
    apply List.mem_map.mpr
    refine ⟨⟨uriJoinPath (normDir dir) ".", ".", FileType.directory⟩, ?_, rfl⟩
    apply List.mem_filter.mpr
    refine ⟨?_, rfl⟩
    apply List.mem_filter.mpr
    refine ⟨?_, by rw [hsel]; rfl⟩
    apply List.mem_filter.mpr
    refine ⟨?_, rfl⟩
    apply List.mem_filter.mpr
    refine ⟨?_, rfl⟩
    apply List.mem_map.mpr
    refine ⟨(".", FileType.directory), ?_, rfl⟩
    rw [hsel]
    simp
  · intro ccf
    show (if ccf && FileType.directory == FileType.directory
          && !((uriJoinPath (normDir dir) ".").path == (normDir dir).path)
        then NavStep.descend (uriJoinPath (normDir dir) ".")
        else NavStep.terminal [uriJoinPath (normDir dir) "."]) = _
    rw [hjd]
    simp

/-- C10 witness: the `"."` entry of a concrete browsing state terminates on
the current directory even with `canChangeFolder` enabled. -/
theorem c10_dot_terminal_witness :
    (⟨uriJoinPath (normDir (uriParse "/a")) ".", ".", FileType.directory, "./"⟩ : QuickItem)
        ∈ buildItems (fun _ _ => true) (normDir (uriParse "/a")) []
            { defaultOptions with canSelectFolders := true } ∧
    uriJoinPath (normDir (uriParse "/a")) "." = normDir (uriParse "/a") ∧
    navDecide (normDir (uriParse "/a"))
        [⟨uriJoinPath (normDir (uriParse "/a")) ".", ".", FileType.directory, "./"⟩] true
      = NavStep.terminal [normDir (uriParse "/a")] := by
  have h := c10_dot_terminal (uriParse "/a") (fun _ _ => true) []
    { defaultOptions with canSelectFolders := true } rfl
  exact ⟨h.1, h.2.1, h.2.2 true⟩

end PickTs
